import Mathlib

/-!
Shallow embedding of the tabol table-generation engine
(src/tabol.rs and src/nom_parser.rs) and proofs about its spec.

Conventions of the embedding:
* Rust `f32` rule weights are modelled as `Rat`; all weight values that
  appear in the claims are small integers, where `f32` arithmetic is exact.
* Randomness is modelled by explicit oracle streams: `ρ : Nat → Rat`
  supplies the uniform draw in `[0, total)` consumed by
  `WeightedIndex::sample`, and `δ : Nat → Nat` supplies the raw entropy
  for one uniform integer draw of `roll_dice`.  A position counter `pos`
  indexes the next unconsumed draw.
* A computation that returns no value to its caller — either because it
  diverges (unbounded recursion, modelled by fuel exhaustion) or because
  the process aborts (a Rust `panic!` / `.unwrap()` failure) — is
  modelled as `none`; `some (Except.error e, pos)` is a typed error value
  returned to the caller and `some (Except.ok v, pos)` a normal return.
* Rust `char` classification (`is_alphanumeric`, `to_uppercase`, …) is
  modelled by the corresponding ASCII-correct Lean `Char` functions; all
  inputs appearing in claims are ASCII.
-/

/-- `FilterOp` from src/tabol.rs (lines 229-234). -/
inductive FilterOp where
  | DefiniteArticle
  | IndefiniteArticle
  | Capitalize
deriving Repr, DecidableEq

/-- `RuleInst` from src/tabol.rs (lines 222-227): one part of a rule body. -/
inductive RuleInst where
  | DiceRoll (count sides : Nat)
  | Literal (s : String)
  | Interpolation (id : String) (opts : List FilterOp)
deriving Repr, DecidableEq

/-- `Rule` from src/tabol.rs (lines 188-193). -/
structure Rule where
  raw : String
  weight : Rat
  parts : List RuleInst
deriving Repr, DecidableEq

/-- `TableError` from src/tabol.rs (lines 12-20).  The `ParseError`
payload (source text and nom error tree) is collapsed to a message. -/
inductive TableError where
  | ParseError (msg : String)
  | InvalidDefinition (msg : String)
  | CallError (msg : String)
deriving Repr, DecidableEq

/-- Rust `str::starts_with` with a `char` pattern: true iff the first
character of `v` is `c`. -/
def startsWithChar (v : String) (c : Char) : Bool :=
  match v.toList with
  | [] => false
  | c0 :: _ => c0 = c

/-- `FilterOp::apply` from src/tabol.rs (lines 236-262), as a pure
`String → String` function (the Rust code mutates `value` in place).
Note the `IndefiniteArticle` arm tests only the five lowercase vowel
characters, exactly as the Rust guard
`value.starts_with('a') || … || value.starts_with('u')` does. -/
def FilterOp.apply (op : FilterOp) (value : String) : String :=
  match op with
  | .DefiniteArticle => "the " ++ value
  | .IndefiniteArticle =>
      if startsWithChar value 'a' || startsWithChar value 'e' || startsWithChar value 'i'
          || startsWithChar value 'o' || startsWithChar value 'u' then
        "an " ++ value
      else
        "a " ++ value
  | .Capitalize =>
      match value.toList with
      | [] => value
      | first :: rest => String.mk (first.toUpper :: rest)

/-- The filter pipeline loop `for opt in opts { opt.apply(&mut resolved) }`
from `Rule::resolve` (src/tabol.rs lines 209-211): filters run in
declared order over the current value. -/
def applyFilters (opts : List FilterOp) (value : String) : String :=
  opts.foldl (fun acc opt => opt.apply acc) value

/-- The largest `usize` value on the 64-bit targets this crate builds
for: `2 ^ 64 - 1`. -/
def usizeMax : Nat := 2 ^ 64 - 1

/-- `roll_dice` from src/tabol.rs (lines 264-273), with `usize`
arithmetic modelled faithfully.  Each loop iteration builds
`Uniform::new(1, sides + 1)`:
* when `sides = usize::MAX` the addition `sides + 1` overflows — a
  panic in a debug build, a wrap to `0` in release so that
  `Uniform::new(1, 0)` panics on the reversed range — so under either
  build the process aborts (modelled as `none`);
* when `sides = 0` the interval `[1, 1)` is empty and
  `Uniform::new(1, 1)` panics (modelled as `none`);
* otherwise it draws one value from `[1, sides]`, modelled as
  `1 + δ pos % sides` where `δ` is the entropy oracle, and adds it to
  the running total with release-mode wrapping (`% 2 ^ 64`; a debug
  build would instead panic at the first overflowing addition, and the
  theorems below hold under either semantics: they either assume the
  total never overflows or do not concern it).
`count = 0` runs the loop zero times and returns `0` without touching
the sampler. -/
def rollDiceRun (δ : Nat → Nat) (pos : Nat) (count sides : Nat) : Option Nat :=
  match count with
  | 0 => some 0
  | c + 1 =>
      if sides = usizeMax then none
      else if 1 < sides + 1 then
        match rollDiceRun δ (pos + 1) c sides with
        | none => none
        | some total => some ((total + (1 + δ pos % sides)) % 2 ^ 64)
      else
        none

/-- Model of `rand::distributions::WeightedIndex<f32>`: the weight list
it was built from (the Rust value stores cumulative weights plus the
total; the weight list determines both). -/
structure WeightedIndexM where
  weights : List Rat
deriving Repr, DecidableEq

/-- `WeightedIndex::new(weights)` (rand 0.8): `Err(NoItem)` on an empty
list, `Err(InvalidWeight)` if any weight is negative (f32 `!(w >= 0)`),
`Err(AllWeightsZero)` if the total is zero; otherwise `Ok`.  The three
error cases are collapsed to `none`. -/
def WeightedIndexM.new (ws : List Rat) : Option WeightedIndexM :=
  if ws = [] then none
  else if ws.any (fun w => w < 0) then none
  else if ws.sum = 0 then none
  else some ⟨ws⟩

/-- The index selection of `WeightedIndex::sample`: given a uniform draw
`x ∈ [0, total)`, return the least index `i` with
`x < w₀ + … + wᵢ` (the binary search over cumulative weights).  A draw
outside the range clamps to the last index, which a real uniform draw
never produces. -/
def sampleIdx (ws : List Rat) (x : Rat) : Nat :=
  match ws with
  | [] => 0
  | [_] => 0
  | w :: rest => if x < w then 0 else sampleIdx rest (x - w) + 1

/-- `WeightedIndex::sample` with the uniform draw `x` made explicit. -/
def WeightedIndexM.sample (d : WeightedIndexM) (x : Rat) : Nat :=
  sampleIdx d.weights x

/-- `TableDefinition` from src/tabol.rs (lines 158-165). -/
structure TableDefinition where
  title : String
  id : String
  rules : List Rule
  weights : List Rat
  distribution : WeightedIndexM
deriving Repr, DecidableEq

/-- `TableDefinition::new` from src/tabol.rs (lines 167-178): collect the
rule weights and build the weighted distribution.  The Rust code calls
`WeightedIndex::new(&weights).unwrap()`, so a weight list the
distribution rejects (empty, negative entry, or zero sum) panics —
modelled as `none`: no `TableDefinition` value is ever produced. -/
def TableDefinition.new (title id : String) (rules : List Rule) :
    Option TableDefinition :=
  let weights : List Rat := rules.map (fun rule => rule.weight)
  match WeightedIndexM.new weights with
  | none => none
  | some dist => some ⟨title, id, rules, weights, dist⟩

/-- `Tabol` from src/tabol.rs (lines 91-94).  The `HashMap` is modelled
as an association list with `HashMap::insert` overwrite semantics
(`mapInsert` below); iteration order is the insertion order. -/
structure Tabol where
  table_map : List (String × TableDefinition)
deriving Repr, DecidableEq

/-- `HashMap::insert`: replace the binding of `k` if present, else add
it. -/
def mapInsert (m : List (String × TableDefinition)) (k : String)
    (v : TableDefinition) : List (String × TableDefinition) :=
  match m with
  | [] => [(k, v)]
  | (k', v') :: rest =>
      if k' = k then (k, v) :: rest else (k', v') :: mapInsert rest k v

/-- The insertion loop of `Tabol::new` (src/tabol.rs lines 102-104):
`for table in tables { table_map.insert(table.id, table); }`. -/
def buildTableMap (tables : List TableDefinition) :
    List (String × TableDefinition) :=
  tables.foldl (fun m table => mapInsert m table.id table) []

/-- Outcome of a resolution-engine computation: `none` when no value is
returned to the caller (unbounded recursion, modelled by fuel
exhaustion, or a panic), otherwise the returned `Result` paired with the
next unconsumed oracle position. -/
abbrev RRes (α : Type) := Option (Except TableError α × Nat)

/-- The placeholder `Rule` used by `List.getD` when the sampled index is
out of range; `WeightedIndex::sample` never returns such an index. -/
def defaultRule : Rule := ⟨"", 0, []⟩

/-- The part-by-part loop inside `Rule::resolve` (src/tabol.rs lines
200-216), with the interpolation resolver `genI` (the `tables.gen(id)`
call) abstracted so that the recursion through the registry is carried
by the fuel of `Tabol.gen` below: a `DiceRoll` becomes the decimal
string of `roll_dice`, a `Literal` is passed through, an
`Interpolation` resolves the target table and then applies its filters
in declared order; the first error aborts the traversal (`collect` over
`Result`). -/
def resolvePartsW (genI : String → Nat → RRes String) (δ : Nat → Nat)
    (parts : List RuleInst) (pos : Nat) : RRes (List String) :=
  match parts with
  | [] => some (.ok [], pos)
  | part :: rest =>
      match part with
      | .DiceRoll count sides =>
          match rollDiceRun δ pos count sides with
          | none => none
          | some total =>
              match resolvePartsW genI δ rest (pos + count) with
              | none => none
              | some (.error e, p) => some (.error e, p)
              | some (.ok l, p) => some (.ok (toString total :: l), p)
      | .Literal s =>
          match resolvePartsW genI δ rest pos with
          | none => none
          | some (.error e, p) => some (.error e, p)
          | some (.ok l, p) => some (.ok (s :: l), p)
      | .Interpolation id opts =>
          match genI id pos with
          | none => none
          | some (.error e, p) => some (.error e, p)
          | some (.ok v, p) =>
              match resolvePartsW genI δ rest p with
              | none => none
              | some (.error e, p') => some (.error e, p')
              | some (.ok l, p') => some (.ok (applyFilters opts v :: l), p')

/-- `Rule::resolve` from src/tabol.rs (lines 196-219) with the
interpolation resolver abstracted: resolve every part in order and join
the resolved strings with no separator. -/
def Rule.resolveW (genI : String → Nat → RRes String) (δ : Nat → Nat)
    (rule : Rule) (pos : Nat) : RRes String :=
  match resolvePartsW genI δ rule.parts pos with
  | none => none
  | some (.error e, p) => some (.error e, p)
  | some (.ok l, p) => some (.ok (String.join l), p)

/-- `TableDefinition::gen` from src/tabol.rs (lines 180-185) with the
interpolation resolver abstracted: sample a rule index from the
precomputed weighted distribution and resolve that rule. -/
def TableDefinition.genW (genI : String → Nat → RRes String) (ρ : Nat → Rat)
    (δ : Nat → Nat) (table : TableDefinition) (pos : Nat) : RRes String :=
  Rule.resolveW genI δ
    (table.rules.getD (table.distribution.sample (ρ pos)) defaultRule) (pos + 1)

/-- `Tabol::gen` from src/tabol.rs (lines 130-138): look the id up in
`table_map`; absent ids produce a `CallError`; otherwise generate from
the found table.  `fuel` bounds the recursion depth (the Rust code has
no bound; exhaustion is `none` = no value returned); each recursive
pass through the registry spends one unit of fuel. -/
def Tabol.gen (ρ : Nat → Rat) (δ : Nat → Nat) (fuel : Nat) (t : Tabol)
    (id : String) (pos : Nat) : RRes String :=
  match fuel with
  | 0 => none
  | fuel + 1 =>
      match List.lookup id t.table_map with
      | none => some (.error (.CallError ("No table found with id " ++ id)), pos)
      | some table => TableDefinition.genW (Tabol.gen ρ δ fuel t) ρ δ table pos

/-- `TableDefinition::gen` at a given fuel: the interpolation resolver
is `Tabol::gen` on the same registry. -/
def TableDefinition.gen (ρ : Nat → Rat) (δ : Nat → Nat) (fuel : Nat) (t : Tabol)
    (table : TableDefinition) (pos : Nat) : RRes String :=
  TableDefinition.genW (Tabol.gen ρ δ fuel t) ρ δ table pos

/-- `Rule::resolve` at a given fuel: the interpolation resolver is
`Tabol::gen` on the same registry. -/
def Rule.resolve (ρ : Nat → Rat) (δ : Nat → Nat) (fuel : Nat) (t : Tabol)
    (rule : Rule) (pos : Nat) : RRes String :=
  Rule.resolveW (Tabol.gen ρ δ fuel t) δ rule pos

/-- The inner loop of `Tabol::validate_tables` (src/tabol.rs lines
112-121) over one table's rules: resolve each rule once; the first
failing rule is reported as an `InvalidDefinition` naming the table and
the rule's raw text. -/
def validateRules (ρ : Nat → Rat) (δ : Nat → Nat) (fuel : Nat) (t : Tabol)
    (table_id : String) (rules : List Rule) (pos : Nat) : RRes Unit :=
  match rules with
  | [] => some (.ok (), pos)
  | rule :: rest =>
      match Rule.resolve ρ δ fuel t rule pos with
      | none => none
      | some (.error err, p) =>
          some (.error (.InvalidDefinition
            ("in table \"" ++ table_id ++ "\" for rule \"" ++ rule.raw
              ++ "\". Original error: \"" ++ toString (repr err) ++ "\"")), p)
      | some (.ok _, p) => validateRules ρ δ fuel t table_id rest p

/-- The outer loop of `Tabol::validate_tables` over the registry
entries (iteration order of the model is the association-list order; the
Rust `HashMap` iterates in an unspecified order). -/
def validateEntries (ρ : Nat → Rat) (δ : Nat → Nat) (fuel : Nat) (t : Tabol)
    (entries : List (String × TableDefinition)) (pos : Nat) : RRes Unit :=
  match entries with
  | [] => some (.ok (), pos)
  | (table_id, table) :: rest =>
      match validateRules ρ δ fuel t table_id table.rules pos with
      | none => none
      | some (.error e, p) => some (.error e, p)
      | some (.ok _, p) => validateEntries ρ δ fuel t rest p

/-- `Tabol::validate_tables` from src/tabol.rs (lines 111-124). -/
def Tabol.validate_tables (ρ : Nat → Rat) (δ : Nat → Nat) (fuel : Nat)
    (t : Tabol) (pos : Nat) : RRes Unit :=
  validateEntries ρ δ fuel t t.table_map pos

/-- `Tabol::new` from src/tabol.rs (lines 97-109), starting from the
parsed table list (the output of `nom_parser::parse_tables`, whose
rule-level grammar is embedded below): insert every table into the map
keyed by its id — `HashMap::insert` silently replaces an existing
binding — then run the validation pass. -/
def Tabol.new (ρ : Nat → Rat) (δ : Nat → Nat) (fuel : Nat)
    (tables : List TableDefinition) (pos : Nat) : RRes Tabol :=
  let t : Tabol := ⟨buildTableMap tables⟩
  match t.validate_tables ρ δ fuel pos with
  | none => none
  | some (.error e, p) => some (.error e, p)
  | some (.ok _, p) => some (.ok t, p)

/-- The generation loop of `Tabol::gen_many` (src/tabol.rs lines
148-152): `count` sequential calls to `table.gen`, pushed in order; the
`?` operator propagates the first failure, discarding the partial
vector. -/
def genManyLoop (ρ : Nat → Rat) (δ : Nat → Nat) (fuel : Nat) (t : Tabol)
    (table : TableDefinition) (count : Nat) (pos : Nat) : RRes (List String) :=
  match count with
  | 0 => some (.ok [], pos)
  | c + 1 =>
      match TableDefinition.gen ρ δ fuel t table pos with
      | none => none
      | some (.error e, p) => some (.error e, p)
      | some (.ok s, p) =>
          match genManyLoop ρ δ fuel t table c p with
          | none => none
          | some (.error e, p') => some (.error e, p')
          | some (.ok l, p') => some (.ok (s :: l), p')

/-- `Tabol::gen_many` from src/tabol.rs (lines 140-155).  The `count`
parameter is `u8` in the Rust signature, modelled as `Fin 256`. -/
def Tabol.gen_many (ρ : Nat → Rat) (δ : Nat → Nat) (fuel : Nat) (t : Tabol)
    (id : String) (count : Fin 256) (pos : Nat) : RRes (List String) :=
  match List.lookup id t.table_map with
  | none => some (.error (.CallError ("No table found with id " ++ id)), pos)
  | some table => genManyLoop ρ δ fuel t table count.val pos

/-! ## Embedding of the nom rule grammar (src/nom_parser.rs)

Parsers run on `List Char`.  `PRes.err` is nom's recoverable
`Err::Error` (alternatives may backtrack), `PRes.fail` its unrecoverable
`Err::Failure` (produced by `.cut()`), and `PRes.panic` a process abort
raised while parsing. -/

inductive PRes (α : Type) where
  | ok (val : α) (rest : List Char)
  | err
  | fail
  | panic
deriving Repr, DecidableEq

abbrev ParserM (α : Type) := List Char → PRes α

/-- `nom_supreme::tag::complete::tag`: match the exact character
sequence `t`. -/
def tagP (t : List Char) : ParserM (List Char) := fun s =>
  if t.isPrefixOf s then .ok t (s.drop t.length) else .err

/-- `Parser::or` / `nom::branch::alt`: try `p`; on a recoverable error
rerun from the same input with `q`; a `Failure` or a panic is not
backtracked. -/
def orP (p q : ParserM α) : ParserM α := fun s =>
  match p s with
  | .ok v rest => .ok v rest
  | .err => q s
  | .fail => .fail
  | .panic => .panic

/-- `Parser::map`: transform the parsed value. -/
def mapP (p : ParserM α) (f : α → β) : ParserM β := fun s =>
  match p s with
  | .ok v rest => .ok (f v) rest
  | .err => .err
  | .fail => .fail
  | .panic => .panic

/-- `nom::bytes::complete::take_while1`: the longest (possibly
improper) prefix of characters satisfying `f`, which must be
nonempty. -/
def takeWhile1P (f : Char → Bool) : ParserM (List Char) := fun s =>
  let v := s.takeWhile f
  if v = [] then .err else .ok v (s.drop v.length)

/-- First index at which `t` occurs as a substring. -/
def findSub (t : List Char) (s : List Char) : Option Nat :=
  if t.isPrefixOf s then some 0
  else
    match s with
    | [] => none
    | _ :: s' => (findSub t s').map (fun i => i + 1)

/-- `nom::bytes::complete::take_until`: consume up to (excluding) the
first occurrence of `t`; error when `t` does not occur. -/
def takeUntilP (t : List Char) : ParserM (List Char) := fun s =>
  match findSub t s with
  | none => .err
  | some i => .ok (s.take i) (s.drop i)

/-- `nom::character::complete::not_line_ending`: consume every
character up to a line ending (possibly none); a lone `'\r'` not
followed by `'\n'` is an error. -/
def notLineEndingP : ParserM (List Char) := fun s =>
  let v := s.takeWhile (fun c => c ≠ '\n' && c ≠ '\r')
  match s.drop v.length with
  | '\r' :: rest' =>
      match rest' with
      | '\n' :: _ => .ok v (s.drop v.length)
      | _ => .err
  | _ => .ok v (s.drop v.length)

/-- `nom_supreme` `p.preceded_by(pre)`: run `pre`, discard its value,
then run `p`. -/
def precededByP (pre : ParserM α) (p : ParserM β) : ParserM β := fun s =>
  match pre s with
  | .ok _ rest => p rest
  | .err => .err
  | .fail => .fail
  | .panic => .panic

/-- `nom_supreme` `p.terminated(post)`: run `p`, then `post`, keeping
`p`'s value. -/
def terminatedP (p : ParserM α) (post : ParserM β) : ParserM α := fun s =>
  match p s with
  | .ok v rest =>
      match post rest with
      | .ok _ rest' => .ok v rest'
      | .err => .err
      | .fail => .fail
      | .panic => .panic
  | .err => .err
  | .fail => .fail
  | .panic => .panic

/-- `nom::sequence::pair`: run both parsers in sequence and pair the
values. -/
def pairP (p : ParserM α) (q : ParserM β) : ParserM (α × β) := fun s =>
  match p s with
  | .ok a rest =>
      match q rest with
      | .ok b rest' => .ok (a, b) rest'
      | .err => .err
      | .fail => .fail
      | .panic => .panic
  | .err => .err
  | .fail => .fail
  | .panic => .panic

/-- `nom_supreme` `p.cut()`: upgrade a recoverable error to a
`Failure`, committing the enclosing alternation. -/
def cutP (p : ParserM α) : ParserM α := fun s =>
  match p s with
  | .ok v rest => .ok v rest
  | .err => .fail
  | .fail => .fail
  | .panic => .panic

/-- `nom::combinator::map_parser(outer, inner)`: run `outer`, feed its
matched characters to `inner`, return `inner`'s value with `outer`'s
remaining input (anything `inner` leaves unconsumed is dropped). -/
def mapParserP (outer : ParserM (List Char)) (inner : ParserM β) : ParserM β := fun s =>
  match outer s with
  | .ok v rest =>
      match inner v with
      | .ok b _ => .ok b rest
      | .err => .err
      | .fail => .fail
      | .panic => .panic
  | .err => .err
  | .fail => .fail
  | .panic => .panic

/-- The collection loop shared by nom's `many0`/`many1`: repeat `p`
while it succeeds.  nom guards against a non-consuming success by
returning an error (`ErrorKind::Many0`/`Many1`) when the inner parser
succeeds without advancing the input; the model's structural fuel starts
above the input length, which the guarded loop can never exhaust. -/
def manyGo (p : ParserM α) : Nat → List α → List Char → PRes (List α)
  | 0, _, _ => .err
  | f + 1, acc, s =>
      match p s with
      | .ok v rest =>
          if rest.length < s.length then manyGo p f (acc ++ [v]) rest
          else .err
      | .err => .ok acc s
      | .fail => .fail
      | .panic => .panic

/-- `nom::multi::many0`. -/
def many0P (p : ParserM α) : ParserM (List α) := fun s =>
  manyGo p (s.length + 1) [] s

/-- `nom::multi::many1`: the first iteration must succeed (and is not
subject to the progress guard, exactly as in nom). -/
def many1P (p : ParserM α) : ParserM (List α) := fun s =>
  match p s with
  | .ok v rest => manyGo p (rest.length + 1) [v] rest
  | .err => .err
  | .fail => .fail
  | .panic => .panic

/-- The opening `{{` / closing `}}` delimiters (braces written as
escapes). -/
def openBrace : List Char := "\x7b\x7b".toList

def closeBrace : List Char := "\x7d\x7d".toList

/-- `ident` from src/nom_parser.rs (lines 181-185):
`take_while1(|c| c.is_alphanumeric() || c == '_')` (ASCII model of
`char::is_alphanumeric`). -/
def identP : ParserM (List Char) :=
  takeWhile1P (fun c => c.isAlphanum || c = '_')

/-- Decimal digits to the number they denote (`str::parse::<usize>` on
a `digit1` match; the model's `Nat` does not overflow). -/
def digitsToNat (cs : List Char) : Nat :=
  cs.foldl (fun acc c => 10 * acc + (c.toNat - '0'.toNat)) 0

/-- `digit1.parse_from_str()`: one or more ASCII digits, converted by
`str::parse::<usize>` — which fails on a value above `usize::MAX`, a
recoverable parser error that sends the rule-part alternation on to the
next alternative. -/
def digit1Nat : ParserM Nat := fun s =>
  match takeWhile1P Char.isDigit s with
  | .ok ds rest =>
      if digitsToNat ds ≤ usizeMax then .ok (digitsToNat ds) rest else .err
  | .err => .err
  | .fail => .fail
  | .panic => .panic

/-- The filter-name table inside `filters` (src/nom_parser.rs lines
161-167): the three recognized names; anything else is
`panic!("unknown filter: …")`. -/
def filterNameToOp (name : List Char) : Option FilterOp :=
  if name = "definite".toList then some .DefiniteArticle
  else if name = "indefinite".toList then some .IndefiniteArticle
  else if name = "capitalize".toList then some .Capitalize
  else none

/-- `filters` from src/nom_parser.rs (lines 156-171):
`many0(ident.preceded_by(tag("|")))`, then map every collected name to
its `FilterOp` — where an unrecognized name panics (`PRes.panic`). -/
def filtersP : ParserM (List FilterOp) := fun s =>
  match many0P (precededByP (tagP "|".toList) identP) s with
  | .ok names rest =>
      match names.mapM filterNameToOp with
      | some ops => .ok ops rest
      | none => .panic
  | .err => .err
  | .fail => .fail
  | .panic => .panic

/-- `pipeline` from src/nom_parser.rs (lines 150-154):
`pair(ident.cut(), filters)`. -/
def pipelineP : ParserM (List Char × List FilterOp) :=
  pairP (cutP identP) filtersP

/-- `rule_interpolation` from src/nom_parser.rs (lines 141-148):
`pipeline.preceded_by(tag("{{")).terminated(tag("}}"))`. -/
def ruleInterpolationP : ParserM RuleInst :=
  mapP (terminatedP (precededByP (tagP openBrace) pipelineP) (tagP closeBrace))
    (fun pr => .Interpolation (String.mk pr.1) pr.2)

/-- `rule_dice_roll` from src/nom_parser.rs (lines 117-130):
`(digit1 ~ "d" ~ digit1 | "d" ~ digit1)` — an omitted count defaults to
1 — delimited by `{{` `}}`.  Each digit run is at least one digit, but
the digits may denote `0`. -/
def ruleDiceRollP : ParserM RuleInst :=
  mapP
    (terminatedP
      (precededByP (tagP openBrace)
        (orP
          (pairP digit1Nat (precededByP (tagP "d".toList) digit1Nat))
          (mapP (precededByP (tagP "d".toList) digit1Nat) (fun sides => (1, sides)))))
      (tagP closeBrace))
    (fun pr => .DiceRoll pr.1 pr.2)

/-- `char::is_ascii_punctuation`. -/
def isAsciiPunct (c : Char) : Bool :=
  (0x21 ≤ c.toNat && c.toNat ≤ 0x2F) || (0x3A ≤ c.toNat && c.toNat ≤ 0x40)
    || (0x5B ≤ c.toNat && c.toNat ≤ 0x60) || (0x7B ≤ c.toNat && c.toNat ≤ 0x7E)

/-- The character class of `literal` (src/nom_parser.rs lines 173-179):
alphanumeric, `_`, `-`, whitespace or ASCII punctuation (ASCII model of
the Rust character classes). -/
def isLiteralChar (c : Char) : Bool :=
  c.isAlphanum || c = '_' || c = '-' || c.isWhitespace || isAsciiPunct c

/-- `literal` from src/nom_parser.rs (lines 173-179):
`take_while1` over the literal character class — never matches the
empty string. -/
def literalP : ParserM (List Char) :=
  takeWhile1P isLiteralChar

/-- `rule_literal` from src/nom_parser.rs (lines 132-139):
`map_parser(take_until("{{").or(not_line_ending), literal)`.  The
source comment notes the inner `literal` is what keeps a successful
match nonempty, "which causes many1 to fail" otherwise. -/
def ruleLiteralP : ParserM RuleInst :=
  mapP (mapParserP (orP (takeUntilP openBrace) notLineEndingP) literalP)
    (fun v => .Literal (String.mk v))

/-- The rule-part alternation inside `rule` (src/nom_parser.rs line
111): `rule_dice_roll.or(rule_interpolation).or(rule_literal)`. -/
def rulePartP : ParserM RuleInst :=
  orP (orP ruleDiceRollP ruleInterpolationP) ruleLiteralP

/-- `rule` from src/nom_parser.rs (lines 110-115):
`many1(rule_dice_roll.or(rule_interpolation).or(rule_literal))` with
`.with_recognized()` pairing the consumed source text with the parts. -/
def ruleBodyP : ParserM (List Char × List RuleInst) := fun s =>
  match many1P rulePartP s with
  | .ok parts rest => .ok (s.take (s.length - rest.length), parts) rest
  | .err => .err
  | .fail => .fail
  | .panic => .panic

/-! ## Shared instances and concrete registries used in witnesses -/

deriving instance DecidableEq for Except

/-- Constant-zero weighted-draw oracle. -/
def ρ0 : Nat → Rat := fun _ => 0

/-- Constant-zero dice entropy oracle. -/
def δ0 : Nat → Nat := fun _ => 0

/-- Table `b`: one rule, the literal `hi`. -/
def tdBv : TableDefinition :=
  ⟨"B", "b", [⟨"hi", 1, [.Literal "hi"]⟩], [1], ⟨[1]⟩⟩

/-- Table `a`: one rule interpolating table `b`. -/
def tdAv : TableDefinition :=
  ⟨"A", "a", [⟨"\x7b\x7bb\x7d\x7d", 1, [.Interpolation "b" []]⟩], [1], ⟨[1]⟩⟩

/-- The registry holding tables `a` and `b`. -/
def tEx : Tabol := ⟨buildTableMap [tdAv, tdBv]⟩

/-- The first duplicate-id table. -/
def tdDup1 : TableDefinition :=
  ⟨"First", "a", [⟨"x", 1, [.Literal "x"]⟩], [1], ⟨[1]⟩⟩

/-- The second duplicate-id table (same id `a`). -/
def tdDup2 : TableDefinition :=
  ⟨"Second", "a", [⟨"y", 1, [.Literal "y"]⟩], [1], ⟨[1]⟩⟩

/-- Every interpolation target named in any rule of any table of the
registry is present in the registry (the invariant the validation pass
establishes). -/
def interpTargetsPresent (t : Tabol) : Bool :=
  t.table_map.all (fun e =>
    e.2.rules.all (fun rule =>
      rule.parts.all (fun part =>
        match part with
        | .Interpolation id _ => (List.lookup id t.table_map).isSome
        | _ => true)))

/-- A parser that, whenever it succeeds, consumes at least one
character. -/
def ConsumesSome (P : ParserM α) : Prop :=
  ∀ s v r, P s = .ok v r → r.length < s.length

/-- A parser that never leaves more input than it was given. -/
def ConsumesMono (P : ParserM α) : Prop :=
  ∀ s v r, P s = .ok v r → r.length ≤ s.length

/-- A parser whose success splits the input exactly into the matched
characters and the rest. -/
def SplitsExact (P : ParserM (List Char)) : Prop :=
  ∀ s v r, P s = .ok v r → v.length + r.length = s.length

/-! ## C1 — unknown filter names -/

/-- C1: an unrecognized filter name in an interpolation pipeline does
NOT produce a typed `ParseError`: the `filters` parser hits
`panic!("unknown filter: …")` (src/nom_parser.rs line 166), aborting
the process.  Shown on the claim's own example `{{x|unknown}}`, both at
the `filters` parser and through the whole rule-part alternation. -/
theorem c1_unknown_filter_aborts :
    filtersP "|unknown".toList = .panic ∧
    rulePartP "\x7b\x7bx|unknown\x7d\x7d".toList = .panic := by
  decide

/-! ## C8 — roll_dice bounds hold only within usize range -/

/-- C8 counterexample: `sides = usize::MAX` is grammar-reachable — the
dice parser accepts `{{1d18446744073709551615}}`, since
`str::parse::<usize>` succeeds at exactly `usize::MAX` — and satisfies
the claim's hypothesis `1 ≤ sides`, yet `roll(1, usize::MAX)` returns
no value at all: `sides + 1` overflows (debug: overflow panic;
release: wrap to `Uniform::new(1, 0)`, which panics on the reversed
range), so no sum in `[1, 1 * usize::MAX]` is ever produced. -/
theorem c8_usize_max_aborts :
    ruleDiceRollP "\x7b\x7b1d18446744073709551615\x7d\x7d".toList
      = .ok (.DiceRoll 1 usizeMax) [] ∧
    (1 : Nat) ≤ usizeMax ∧
    rollDiceRun δ0 0 1 usizeMax = none := by
  refine ⟨by decide, by decide, by decide⟩

/-- C8 amended: for every `count` and every `sides ≥ 1` such that the
`usize` arithmetic stays in range — `sides < usize::MAX`, so
`Uniform::new(1, sides + 1)` can be built, and
`count * sides ≤ usize::MAX`, so the running total cannot overflow —
`roll(count, sides)` is the sum of `count` independent draws from
`[1, sides]` and lies in `[count, count * sides]` (e.g. `roll(2,6)` in
`[2,12]`, `roll(1,20)` in `[1,20]`); `roll(0, s)` returns `0` for every
`s`. -/
theorem c8_roll_dice_bounds_in_range :
    (∀ (δ : Nat → Nat) (pos count sides : Nat),
      1 ≤ sides → sides < usizeMax → count * sides ≤ usizeMax →
      ∃ r, rollDiceRun δ pos count sides = some r ∧
        count ≤ r ∧ r ≤ count * sides) ∧
    (∀ (δ : Nat → Nat) (pos sides : Nat), rollDiceRun δ pos 0 sides = some 0) := by
  constructor
  · intro δ pos count sides hs hmax
    induction count generalizing pos with
    | zero => intro _; exact ⟨0, rfl, Nat.le_refl 0, by simp⟩
    | succ c ih =>
        intro hcs
        have hcs' : c * sides ≤ usizeMax :=
          le_trans (Nat.mul_le_mul (Nat.le_succ c) (Nat.le_refl sides)) hcs
        obtain ⟨r, hr, h1, h2⟩ := ih (pos + 1) hcs'
        have hmod : δ pos % sides < sides := Nat.mod_lt _ (by omega)
        have hsum : r + (1 + δ pos % sides) ≤ (c + 1) * sides := by
          rw [Nat.succ_mul]
          omega
        have hlt : r + (1 + δ pos % sides) < 2 ^ 64 := by
          have hux : usizeMax < 2 ^ 64 := by decide
          have hle := le_trans hsum hcs
          omega
        refine ⟨r + (1 + δ pos % sides), ?_, by omega, hsum⟩
        simp only [rollDiceRun]
        rw [if_neg (by omega : ¬ sides = usizeMax),
          if_pos (by omega : 1 < sides + 1), hr]
        dsimp only
        rw [Nat.mod_eq_of_lt hlt]
  · intro δ pos sides
    rfl

/-- C8 witness: a concrete roll of 2d6, well inside the usize range. -/
theorem c8_roll_dice_bounds_in_range_witness :
    ((1 : Nat) ≤ 6 ∧ 6 < usizeMax ∧ 2 * 6 ≤ usizeMax) ∧
    ∃ r, rollDiceRun (fun _ => 5) 0 2 6 = some r ∧ 2 ≤ r ∧ r ≤ 2 * 6 :=
  ⟨⟨by decide, by decide, by decide⟩,
    c8_roll_dice_bounds_in_range.1 (fun _ => 5) 0 2 6 (by decide) (by decide)
      (by decide)⟩

/-! ## C5 — dice grammar does not force sides ≥ 1 -/

/-- C5 counterexample: the grammar's "at least one digit" requirement
does not force `sides ≥ 1`: the digit may be `0`.  `{{1d0}}` is
accepted as `DiceRoll(1, 0)`, whose `sides = 0` violates `sides ≥ 1`,
and evaluating it faults on the empty draw interval (`Uniform::new(1, 1)`
panics — no value is returned). -/
theorem c5_sides_zero_accepted :
    ruleDiceRollP "\x7b\x7b1d0\x7d\x7d".toList = .ok (.DiceRoll 1 0) [] ∧
    ¬ (1 : Nat) ≤ 0 ∧
    rollDiceRun δ0 0 1 0 = none := by
  decide

/-- C5 amended: the grammar requires at least one digit for `sides` but
accepts the digit `0` — `{{1d0}}` parses as `DiceRoll(1, 0)`, so
`sides ≥ 1` is not enforced — and evaluating any `DiceRoll` part with
`count ≥ 1` and `sides = 0` faults on the empty draw interval
(`Uniform::new(1, 1)` panics): no value is returned. -/
theorem c5_sides_zero_always_faults :
    ruleDiceRollP "\x7b\x7b1d0\x7d\x7d".toList = .ok (.DiceRoll 1 0) [] ∧
    ∀ (δ : Nat → Nat) (pos count : Nat), count ≠ 0 →
      rollDiceRun δ pos count 0 = none := by
  refine ⟨by decide, ?_⟩
  intro δ pos count hc
  cases count with
  | zero => exact absurd rfl hc
  | succ c =>
      simp only [rollDiceRun]
      rw [if_neg (by decide : ¬ (0 : Nat) = usizeMax),
        if_neg (by decide : ¬ (1 : Nat) < 0 + 1)]

/-- C5 witness: one die with zero sides returns no value. -/
theorem c5_sides_zero_always_faults_witness :
    (1 : Nat) ≠ 0 ∧ rollDiceRun δ0 0 1 0 = none :=
  ⟨by decide, c5_sides_zero_always_faults.2 δ0 0 1 (by decide)⟩

/-! ## C4 — IndefiniteArticle is case-sensitive -/

/-- C4 counterexample: the vowel test of `IndefiniteArticle` is not
case-insensitive — the pipeline `capitalize` then `indefinite` on
`"elf"` produces `"a Elf"`, not the claimed `"an Elf"` (the guard in
src/tabol.rs lines 242-247 checks only the lowercase `'a','e','i','o','u'`,
and `Capitalize` has already turned the first character into `'E'`). -/
theorem c4_capitalize_indefinite_elf :
    applyFilters [FilterOp.Capitalize, FilterOp.IndefiniteArticle] "elf" = "a Elf" ∧
    "a Elf" ≠ "an Elf" := by
  decide

/-- C4 amended: `IndefiniteArticle` prepends `"an "` exactly when the
current string (after earlier filters in the pipeline have run) starts
with a lowercase vowel `a,e,i,o,u` — the comparison is case-sensitive —
and prepends `"a "` otherwise; consequently the pipeline `capitalize`
then `indefinite` on `"elf"` yields `"a Elf"`. -/
theorem c4_indefinite_lowercase_vowels :
    (∀ (v : String) (c : Char) (rest : List Char), v.toList = c :: rest →
      FilterOp.IndefiniteArticle.apply v =
        (if c = 'a' ∨ c = 'e' ∨ c = 'i' ∨ c = 'o' ∨ c = 'u'
          then "an " ++ v else "a " ++ v)) ∧
    applyFilters [FilterOp.Capitalize, FilterOp.IndefiniteArticle] "elf" = "a Elf" := by
  refine ⟨?_, by decide⟩
  intro v c rest h
  simp only [FilterOp.apply, startsWithChar, h]
  by_cases hc : c = 'a' ∨ c = 'e' ∨ c = 'i' ∨ c = 'o' ∨ c = 'u'
  · rw [if_pos hc]
    rcases hc with hc | hc | hc | hc | hc <;> subst hc <;> simp
  · rw [if_neg hc]
    push_neg at hc
    obtain ⟨h1, h2, h3, h4, h5⟩ := hc
    simp [h1, h2, h3, h4, h5]

/-- C4 witness: `"apple"` starts with the lowercase vowel `'a'`, so the
filter prepends `"an "`. -/
theorem c4_indefinite_lowercase_vowels_witness :
    "apple".toList = 'a' :: "pple".toList ∧
    FilterOp.IndefiniteArticle.apply "apple" = "an apple" := by
  refine ⟨by decide, ?_⟩
  have h := c4_indefinite_lowercase_vowels.1 "apple" 'a' "pple".toList (by decide)
  simpa using h

/-! ## C3 — zero weight sum panics instead of a typed error -/

unseal Rat.add in
/-- C3 counterexample: a table whose rule weights sum to zero does not
produce a typed `DefinitionError` value: `TableDefinition::new` calls
`WeightedIndex::new(&weights).unwrap()`, which panics on
`AllWeightsZero` — no value (and in particular no error value) is ever
returned to the caller. -/
theorem c3_zero_weights_abort :
    TableDefinition.new "Zero" "z" [⟨"0: x", 0, [.Literal "x"]⟩] = none := by
  decide

/-- C3 amended: a parsed table whose rule weights sum to zero aborts
registry construction via panic (modelled: `TableDefinition.new`
returns no value) rather than returning a typed `DefinitionError`; in
particular no registry containing an unsampleable table is ever
produced. -/
theorem c3_zero_weight_sum_no_value :
    ∀ (title id : String) (rules : List Rule),
      (rules.map (fun r => r.weight)).sum = 0 →
      TableDefinition.new title id rules = none := by
  intro title id rules h
  have hw : WeightedIndexM.new (rules.map (fun rule => rule.weight)) = none := by
    simp [WeightedIndexM.new, h]
  simp [TableDefinition.new, hw]

unseal Rat.add in
/-- C3 witness: the concrete all-zero-weight table. -/
theorem c3_zero_weight_sum_no_value_witness :
    (([⟨"0: x", 0, [.Literal "x"]⟩] : List Rule).map (fun r => r.weight)).sum = 0 ∧
    TableDefinition.new "Zero" "z" [⟨"0: x", 0, [.Literal "x"]⟩] = none :=
  ⟨by decide, c3_zero_weight_sum_no_value "Zero" "z" _ (by decide)⟩

/-! ## C2 — duplicate table ids overwrite instead of erroring -/

unseal Rat.add in
/-- C2 counterexample: a document with two table definitions sharing the
id `a` does not fail registry construction: `Tabol::new` returns `Ok`,
and the registry holds only the second definition — `HashMap::insert`
silently replaced the first. -/
theorem c2_duplicate_id_not_rejected :
    TableDefinition.new "First" "a" [⟨"x", 1, [.Literal "x"]⟩] = some tdDup1 ∧
    TableDefinition.new "Second" "a" [⟨"y", 1, [.Literal "y"]⟩] = some tdDup2 ∧
    Tabol.new ρ0 δ0 2 [tdDup1, tdDup2] 0 = some (.ok ⟨[("a", tdDup2)]⟩, 0) := by
  decide

/-- `mapInsert` and `List.lookup` interact like `HashMap` insert and
get: the inserted key maps to the new value, other keys are
unchanged. -/
theorem lookup_mapInsert (m : List (String × TableDefinition))
    (k k' : String) (v : TableDefinition) :
    List.lookup k' (mapInsert m k v) = if k = k' then some v else List.lookup k' m := by
  induction m with
  | nil =>
      by_cases h : k = k'
      · subst h
        simp [mapInsert, List.lookup]
      · have hb : (k' == k) = false := by simp [Ne.symm h]
        simp [mapInsert, List.lookup, hb, h]
  | cons a rest ih =>
      obtain ⟨ka, va⟩ := a
      by_cases hak : ka = k
      · subst hak
        by_cases h : ka = k'
        · subst h
          simp [mapInsert, List.lookup]
        · have hb : (k' == ka) = false := by simp [Ne.symm h]
          simp [mapInsert, List.lookup, hb, h]
      · by_cases h2 : k' = ka
        · subst h2
          have hkk : ¬ k = k' := fun hh => hak hh.symm
          simp [mapInsert, List.lookup, hak, hkk]
        · have hb : (k' == ka) = false := by simp [h2]
          simp [mapInsert, List.lookup, hak, hb, ih]

/-- The insertion loop of `Tabol::new` resolves an id to the last
definition carrying it, starting from an arbitrary accumulator map. -/
theorem lookup_foldl_mapInsert (l : List TableDefinition)
    (m : List (String × TableDefinition)) (id : String) :
    List.lookup id (l.foldl (fun m td => mapInsert m td.id td) m)
      = (match l.reverse.find? (fun td => td.id == id) with
          | some td => some td
          | none => List.lookup id m) := by
  induction l generalizing m with
  | nil => simp
  | cons td rest ih =>
      simp only [List.foldl_cons, List.reverse_cons, List.find?_append]
      rw [ih]
      cases h : rest.reverse.find? (fun td => td.id == id) with
      | some u => simp
      | none =>
          simp only [Option.none_orElse, List.find?_cons, List.find?_nil]
          rw [lookup_mapInsert]
          by_cases hid : td.id = id
          · simp [hid]
          · have hb : (td.id == id) = false := by simp [hid]
            simp [hb, hid]

/-- C2 amended: duplicate table ids are not rejected; registry
construction keeps, for every id, the **last** parsed definition with
that id (`HashMap::insert` overwrites), and the built map contains
exactly the parsed ids. -/
theorem c2_last_definition_wins :
    ∀ (tables : List TableDefinition) (id : String),
      List.lookup id (buildTableMap tables)
        = tables.reverse.find? (fun td => td.id == id) ∧
      ((List.lookup id (buildTableMap tables)).isSome ↔
        id ∈ tables.map (fun td => td.id)) := by
  intro tables id
  have h := lookup_foldl_mapInsert tables [] id
  simp only [buildTableMap]
  have heq : List.lookup id (List.foldl (fun m td => mapInsert m td.id td) [] tables)
      = tables.reverse.find? (fun td => td.id == id) := by
    rw [h]
    cases hf : tables.reverse.find? (fun td => td.id == id) <;> simp
  refine ⟨heq, ?_⟩
  rw [heq]
  cases hf : tables.reverse.find? (fun td => td.id == id) with
  | some u =>
      have hp := List.find?_some hf
      have hmem := List.mem_of_find?_eq_some hf
      simp only [Option.isSome_some, true_iff]
      rw [List.mem_reverse] at hmem
      exact List.mem_map.mpr ⟨u, hmem, by simpa using hp⟩
  | none =>
      simp only [Option.isSome_none, Bool.false_eq_true, false_iff]
      intro hmem
      obtain ⟨u, hu, hid⟩ := List.mem_map.mp hmem
      have := List.find?_eq_none.mp hf u (List.mem_reverse.mpr hu)
      simp [hid] at this

/-! ## C7 / C10 — gen_many returns exactly n strings or one failure -/

/-- A successful `gen_many` loop returns one string per iteration. -/
theorem genManyLoop_ok_length (ρ : Nat → Rat) (δ : Nat → Nat) (fuel : Nat)
    (t : Tabol) (table : TableDefinition) :
    ∀ (c pos : Nat) (l : List String) (p : Nat),
      genManyLoop ρ δ fuel t table c pos = some (.ok l, p) → l.length = c := by
  intro c
  induction c with
  | zero =>
      intro pos l p h
      simp only [genManyLoop, Option.some.injEq, Prod.mk.injEq, Except.ok.injEq] at h
      rw [← h.1]
      rfl
  | succ c ih =>
      intro pos l p h
      simp only [genManyLoop] at h
      cases hg : TableDefinition.gen ρ δ fuel t table pos with
      | none => rw [hg] at h; simp at h
      | some r =>
          obtain ⟨er, p1⟩ := r
          rw [hg] at h
          cases er with
          | error e => simp at h
          | ok s =>
              dsimp only at h
              cases hl : genManyLoop ρ δ fuel t table c p1 with
              | none => rw [hl] at h; simp at h
              | some r2 =>
                  obtain ⟨er2, p2⟩ := r2
                  rw [hl] at h
                  cases er2 with
                  | error e => simp at h
                  | ok l2 =>
                      simp only [Option.some.injEq, Prod.mk.injEq,
                        Except.ok.injEq] at h
                      rw [← h.1]
                      simp [ih p1 l2 p2 hl]

/-- A successful `gen_many` call returns exactly `count` strings. -/
theorem gen_many_ok_length (ρ : Nat → Rat) (δ : Nat → Nat) (fuel : Nat)
    (t : Tabol) (id : String) (count : Fin 256) (pos : Nat)
    (l : List String) (p : Nat)
    (h : Tabol.gen_many ρ δ fuel t id count pos = some (.ok l, p)) :
    l.length = count.val := by
  simp only [Tabol.gen_many] at h
  cases hg : List.lookup id t.table_map with
  | none => rw [hg] at h; exact absurd h (by simp)
  | some table =>
      rw [hg] at h
      exact genManyLoop_ok_length ρ δ fuel t table count.val pos l p h

/-- C7: `gen_many` is all-or-nothing: each call either returns no value
(the model's fuel/panic case), or one typed error value carrying no
partial list of results, or a list of exactly `count` generated
strings. -/
theorem c7_gen_many_all_or_nothing :
    ∀ (ρ : Nat → Rat) (δ : Nat → Nat) (fuel : Nat) (t : Tabol) (id : String)
      (count : Fin 256) (pos : Nat),
      Tabol.gen_many ρ δ fuel t id count pos = none ∨
      (∃ e p, Tabol.gen_many ρ δ fuel t id count pos = some (.error e, p)) ∨
      (∃ l p, Tabol.gen_many ρ δ fuel t id count pos = some (.ok l, p) ∧
        l.length = count.val) := by
  intro ρ δ fuel t id count pos
  cases h : Tabol.gen_many ρ δ fuel t id count pos with
  | none => exact Or.inl rfl
  | some r =>
      obtain ⟨er, p⟩ := r
      cases er with
      | error e => exact Or.inr (Or.inl ⟨e, p, rfl⟩)
      | ok l =>
          exact Or.inr (Or.inr ⟨l, p, rfl,
            gen_many_ok_length ρ δ fuel t id count pos l p h⟩)

/-- C10: the batch-size parameter of `gen_many` is `u8` (model:
`Fin 256`), so a single call requests at most 255 generations, and a
successful call returns a vector of exactly `count` strings. -/
theorem c10_gen_many_u8_exact :
    ∀ (count : Fin 256), count.val ≤ 255 ∧
      ∀ (ρ : Nat → Rat) (δ : Nat → Nat) (fuel : Nat) (t : Tabol) (id : String)
        (pos : Nat) (l : List String) (p : Nat),
        Tabol.gen_many ρ δ fuel t id count pos = some (.ok l, p) →
        l.length = count.val := by
  intro count
  refine ⟨by omega, ?_⟩
  intro ρ δ fuel t id pos l p h
  exact gen_many_ok_length ρ δ fuel t id count pos l p h

/-- C10 witness: requesting 2 generations from the literal table `b`
returns exactly 2 strings. -/
theorem c10_gen_many_u8_exact_witness :
    Tabol.gen_many ρ0 δ0 3 tEx "b" ⟨2, by omega⟩ 0 = some (.ok ["hi", "hi"], 2) ∧
    (["hi", "hi"] : List String).length = (⟨2, by omega⟩ : Fin 256).val :=
  ⟨by decide,
    (c10_gen_many_u8_exact ⟨2, by omega⟩).2 ρ0 δ0 3 tEx "b" 0 ["hi", "hi"] 2 (by decide)⟩

/-! ## C6 — a validated registry never produces internal CallErrors -/

/-- A successful association-list lookup pinpoints a member pair. -/
theorem lookup_mem {m : List (String × TableDefinition)} {id : String}
    {td : TableDefinition} (h : List.lookup id m = some td) : (id, td) ∈ m := by
  induction m with
  | nil => simp [List.lookup] at h
  | cons a rest ih =>
      obtain ⟨k, v⟩ := a
      simp only [List.lookup] at h
      by_cases hk : id = k
      · subst hk
        have hb : (id == id) = true := by simp
        rw [hb] at h
        cases h
        exact List.mem_cons_self _ _
      · have hb : (id == k) = false := by simp [hk]
        rw [hb] at h
        exact List.mem_cons_of_mem _ (ih h)

/-- A generation that returned a value found its table in the map. -/
theorem gen_ok_lookup (ρ : Nat → Rat) (δ : Nat → Nat) (fuel : Nat) (t : Tabol)
    (id : String) (pos : Nat) (v : String) (p : Nat)
    (h : Tabol.gen ρ δ fuel t id pos = some (.ok v, p)) :
    (List.lookup id t.table_map).isSome := by
  cases fuel with
  | zero => simp [Tabol.gen] at h
  | succ f =>
      simp only [Tabol.gen] at h
      cases hg : List.lookup id t.table_map with
      | none => rw [hg] at h; simp at h
      | some table => simp

/-- If a rule's parts all resolved (under any resolver built from
`Tabol.gen`), every interpolation target they name is present in the
registry: the resolution of an interpolation begins with the map
lookup. -/
theorem resolvePartsW_ok_targets (ρ : Nat → Rat) (δ : Nat → Nat) (fuel : Nat)
    (t : Tabol) :
    ∀ (parts : List RuleInst) (pos : Nat) (v : List String) (p : Nat),
      resolvePartsW (Tabol.gen ρ δ fuel t) δ parts pos = some (.ok v, p) →
      ∀ part ∈ parts, ∀ id opts, part = RuleInst.Interpolation id opts →
        (List.lookup id t.table_map).isSome := by
  intro parts
  induction parts with
  | nil => intro pos v p _ part hmem; simp at hmem
  | cons part rest ih =>
      intro pos v p h part' hmem id opts heq
      rcases List.mem_cons.mp hmem with hhead | htail
      · subst hhead
        subst heq
        simp only [resolvePartsW] at h
        cases hg : Tabol.gen ρ δ fuel t id pos with
        | none => rw [hg] at h; simp at h
        | some r1 =>
            obtain ⟨er1, p1⟩ := r1
            rw [hg] at h
            cases er1 with
            | error e1 => simp at h
            | ok v1 => exact gen_ok_lookup ρ δ fuel t id pos v1 p1 hg
      · cases part with
        | DiceRoll c s =>
            simp only [resolvePartsW] at h
            cases hd : rollDiceRun δ pos c s with
            | none => rw [hd] at h; simp at h
            | some total =>
                rw [hd] at h
                dsimp only at h
                cases hr : resolvePartsW (Tabol.gen ρ δ fuel t) δ rest (pos + c) with
                | none => rw [hr] at h; simp at h
                | some r2 =>
                    obtain ⟨er2, p2⟩ := r2
                    rw [hr] at h
                    cases er2 with
                    | error e2 => simp at h
                    | ok l2 => exact ih (pos + c) l2 p2 hr part' htail id opts heq
        | Literal s =>
            simp only [resolvePartsW] at h
            cases hr : resolvePartsW (Tabol.gen ρ δ fuel t) δ rest pos with
            | none => rw [hr] at h; simp at h
            | some r2 =>
                obtain ⟨er2, p2⟩ := r2
                rw [hr] at h
                cases er2 with
                | error e2 => simp at h
                | ok l2 => exact ih pos l2 p2 hr part' htail id opts heq
        | Interpolation id0 opts0 =>
            simp only [resolvePartsW] at h
            cases hg : Tabol.gen ρ δ fuel t id0 pos with
            | none => rw [hg] at h; simp at h
            | some r1 =>
                obtain ⟨er1, p1⟩ := r1
                rw [hg] at h
                cases er1 with
                | error e1 => simp at h
                | ok v1 =>
                    dsimp only at h
                    cases hr : resolvePartsW (Tabol.gen ρ δ fuel t) δ rest p1 with
                    | none => rw [hr] at h; simp at h
                    | some r2 =>
                        obtain ⟨er2, p2⟩ := r2
                        rw [hr] at h
                        cases er2 with
                        | error e2 => simp at h
                        | ok l2 => exact ih p1 l2 p2 hr part' htail id opts heq

/-- A successful `validate_tables` inner loop resolved every rule of the
table. -/
theorem validateRules_ok_resolve (ρ : Nat → Rat) (δ : Nat → Nat) (fuel : Nat)
    (t : Tabol) (tid : String) :
    ∀ (rules : List Rule) (pos : Nat) (u : Unit) (p : Nat),
      validateRules ρ δ fuel t tid rules pos = some (.ok u, p) →
      ∀ r ∈ rules, ∃ pos' v p', Rule.resolve ρ δ fuel t r pos' = some (.ok v, p') := by
  intro rules
  induction rules with
  | nil => intro pos u p _ r hr; simp at hr
  | cons rule rest ih =>
      intro pos u p h r hr
      simp only [validateRules] at h
      cases hres : Rule.resolve ρ δ fuel t rule pos with
      | none => rw [hres] at h; simp at h
      | some r1 =>
          obtain ⟨er1, p1⟩ := r1
          rw [hres] at h
          cases er1 with
          | error e1 => simp at h
          | ok v1 =>
              rcases List.mem_cons.mp hr with hhead | htail
              · subst hhead
                exact ⟨pos, v1, p1, hres⟩
              · exact ih p1 u p h r htail

/-- A successful `validate_tables` outer loop resolved every rule of
every listed table. -/
theorem validateEntries_ok_resolve (ρ : Nat → Rat) (δ : Nat → Nat) (fuel : Nat)
    (t : Tabol) :
    ∀ (entries : List (String × TableDefinition)) (pos : Nat) (u : Unit) (p : Nat),
      validateEntries ρ δ fuel t entries pos = some (.ok u, p) →
      ∀ e ∈ entries, ∀ r ∈ e.2.rules,
        ∃ pos' v p', Rule.resolve ρ δ fuel t r pos' = some (.ok v, p') := by
  intro entries
  induction entries with
  | nil => intro pos u p _ e he; simp at he
  | cons entry rest ih =>
      intro pos u p h e he r hr
      obtain ⟨tid, table⟩ := entry
      simp only [validateEntries] at h
      cases hv : validateRules ρ δ fuel t tid table.rules pos with
      | none => rw [hv] at h; simp at h
      | some r1 =>
          obtain ⟨er1, p1⟩ := r1
          rw [hv] at h
          cases er1 with
          | error e1 => simp at h
          | ok u1 =>
              rcases List.mem_cons.mp he with hhead | htail
              · subst hhead
                exact validateRules_ok_resolve ρ δ fuel t tid table.rules pos u1 p1 hv r hr
              · exact ih p1 u p h e htail r hr

/-- A successful validation pass establishes the
`interpTargetsPresent` invariant. -/
theorem validate_ok_targetsPresent (ρ : Nat → Rat) (δ : Nat → Nat) (fuel : Nat)
    (t : Tabol) (pos : Nat) (u : Unit) (q : Nat)
    (h : Tabol.validate_tables ρ δ fuel t pos = some (.ok u, q)) :
    interpTargetsPresent t = true := by
  simp only [interpTargetsPresent, List.all_eq_true]
  intro e he rule hrule part hpart
  obtain ⟨pos', v, p', hres⟩ :=
    validateEntries_ok_resolve ρ δ fuel t t.table_map pos u q h e he rule hrule
  simp only [Rule.resolve, Rule.resolveW] at hres
  cases hp : resolvePartsW (Tabol.gen ρ δ fuel t) δ rule.parts pos' with
  | none => rw [hp] at hres; simp at hres
  | some r1 =>
      obtain ⟨er1, p1⟩ := r1
      rw [hp] at hres
      cases er1 with
      | error e1 => simp at hres
      | ok l1 =>
          have htarget := resolvePartsW_ok_targets ρ δ fuel t rule.parts pos' l1 p1 hp
          cases part with
          | DiceRoll c s => simp
          | Literal s => simp
          | Interpolation id opts =>
              simpa using htarget _ hpart id opts rfl

/-- If the resolver never returns a typed error on ids present in the
map and every interpolation target of the parts is present, the part
traversal never returns a typed error (its only error source is the
resolver). -/
theorem resolvePartsW_no_error (δ : Nat → Nat) (genI : String → Nat → RRes String)
    (t : Tabol)
    (hgen : ∀ id pos, (List.lookup id t.table_map).isSome →
      ∀ e p, genI id pos ≠ some (.error e, p)) :
    ∀ (parts : List RuleInst) (pos : Nat),
      (∀ part ∈ parts, ∀ id opts, part = RuleInst.Interpolation id opts →
        (List.lookup id t.table_map).isSome) →
      ∀ e p, resolvePartsW genI δ parts pos ≠ some (.error e, p) := by
  intro parts
  induction parts with
  | nil => intro pos _ e p; simp [resolvePartsW]
  | cons part rest ih =>
      intro pos hp e p h
      cases part with
      | DiceRoll c s =>
          simp only [resolvePartsW] at h
          cases hd : rollDiceRun δ pos c s with
          | none => rw [hd] at h; simp at h
          | some total =>
              rw [hd] at h
              dsimp only at h
              cases hr : resolvePartsW genI δ rest (pos + c) with
              | none => rw [hr] at h; simp at h
              | some r2 =>
                  obtain ⟨er2, p2⟩ := r2
                  rw [hr] at h
                  cases er2 with
                  | error e2 =>
                      exact absurd hr
                        (ih (pos + c)
                          (fun q hq => hp q (List.mem_cons_of_mem _ hq)) e2 p2)
                  | ok l2 => simp at h
      | Literal s =>
          simp only [resolvePartsW] at h
          cases hr : resolvePartsW genI δ rest pos with
          | none => rw [hr] at h; simp at h
          | some r2 =>
              obtain ⟨er2, p2⟩ := r2
              rw [hr] at h
              cases er2 with
              | error e2 =>
                  exact absurd hr
                    (ih pos (fun q hq => hp q (List.mem_cons_of_mem _ hq)) e2 p2)
              | ok l2 => simp at h
      | Interpolation id0 opts0 =>
          simp only [resolvePartsW] at h
          have hid : (List.lookup id0 t.table_map).isSome :=
            hp _ (List.mem_cons_self _ _) id0 opts0 rfl
          cases hg : genI id0 pos with
          | none => rw [hg] at h; simp at h
          | some r1 =>
              obtain ⟨er1, p1⟩ := r1
              rw [hg] at h
              cases er1 with
              | error e1 => exact absurd hg (hgen id0 pos hid e1 p1)
              | ok v1 =>
                  dsimp only at h
                  cases hr : resolvePartsW genI δ rest p1 with
                  | none => rw [hr] at h; simp at h
                  | some r2 =>
                      obtain ⟨er2, p2⟩ := r2
                      rw [hr] at h
                      cases er2 with
                      | error e2 =>
                          exact absurd hr
                            (ih p1
                              (fun q hq => hp q (List.mem_cons_of_mem _ hq)) e2 p2)
                      | ok l2 => simp at h

/-- Under the `interpTargetsPresent` invariant, `Tabol::gen` on a
present id never returns a typed error, at any fuel: the only error it
can construct is the missing-table `CallError`, and every table it can
reach is present. -/
theorem gen_no_error_of_targets (ρ : Nat → Rat) (δ : Nat → Nat) (t : Tabol)
    (htp : interpTargetsPresent t = true) :
    ∀ (fuel : Nat) (id : String) (pos : Nat),
      (List.lookup id t.table_map).isSome →
      ∀ e p, Tabol.gen ρ δ fuel t id pos ≠ some (.error e, p) := by
  have hspec : ∀ e ∈ t.table_map, ∀ rule ∈ e.2.rules, ∀ part ∈ rule.parts,
      ∀ id opts, part = RuleInst.Interpolation id opts →
        (List.lookup id t.table_map).isSome := by
    simp only [interpTargetsPresent, List.all_eq_true] at htp
    intro e he rule hrule part hpart id opts heq
    have h3 := htp e he rule hrule part hpart
    subst heq
    simpa using h3
  intro fuel
  induction fuel with
  | zero => intro id pos _ e p; simp [Tabol.gen]
  | succ f ih =>
      intro id pos hid e p h
      simp only [Tabol.gen] at h
      cases hg : List.lookup id t.table_map with
      | none => rw [hg] at hid; simp at hid
      | some table =>
          rw [hg] at h
          simp only [TableDefinition.genW, Rule.resolveW] at h
          have hparts : ∀ part ∈
              (table.rules.getD (table.distribution.sample (ρ pos)) defaultRule).parts,
              ∀ id2 opts, part = RuleInst.Interpolation id2 opts →
                (List.lookup id2 t.table_map).isSome := by
            by_cases hlt : table.distribution.sample (ρ pos) < table.rules.length
            · have hmem : table.rules.getD (table.distribution.sample (ρ pos))
                  defaultRule ∈ table.rules := by
                rw [List.getD_eq_getElem?_getD, List.getElem?_eq_getElem hlt]
                exact List.getElem_mem hlt
              exact hspec (id, table) (lookup_mem hg) _ hmem
            · have hdef : table.rules.getD (table.distribution.sample (ρ pos))
                  defaultRule = defaultRule := by
                rw [List.getD_eq_getElem?_getD, List.getElem?_eq_none (by omega)]
                rfl
              rw [hdef]
              intro part hpart
              simp [defaultRule] at hpart
          cases hres : resolvePartsW (Tabol.gen ρ δ f t) δ
              (table.rules.getD (table.distribution.sample (ρ pos)) defaultRule).parts
              (pos + 1) with
          | none => rw [hres] at h; simp at h
          | some r1 =>
              obtain ⟨er1, p1⟩ := r1
              rw [hres] at h
              cases er1 with
              | error e1 =>
                  exact absurd hres
                    (resolvePartsW_no_error δ (Tabol.gen ρ δ f t) t ih _ (pos + 1)
                      hparts e1 p1)
              | ok l1 => simp at h

/-- C6: for a registry whose validation pass succeeded, `gen` on any id
present in the registry never returns a typed error — in particular
never a missing-table `CallError` — at any fuel, draw oracle, or
position; internal interpolations only ever call `gen` on present ids,
so only an external caller-supplied (absent) id can produce a
`CallError`. -/
theorem c6_validated_registry_no_internal_callError :
    ∀ (t : Tabol) (ρv : Nat → Rat) (δv : Nat → Nat) (fuelv posv : Nat)
      (u : Unit) (q : Nat),
      Tabol.validate_tables ρv δv fuelv t posv = some (.ok u, q) →
      ∀ (id : String), (List.lookup id t.table_map).isSome →
        ∀ (ρ : Nat → Rat) (δ : Nat → Nat) (fuel pos : Nat)
          (e : TableError) (p : Nat),
          Tabol.gen ρ δ fuel t id pos ≠ some (.error e, p) := by
  intro t ρv δv fuelv posv u q hval id hid ρ δ fuel pos e p
  exact gen_no_error_of_targets ρ δ t
    (validate_ok_targetsPresent ρv δv fuelv t posv u q hval) fuel id pos hid e p

/-- C6 witness: the two-table registry `a → b` validates, `a` is
present, and a concrete `gen` call on `a` does not produce a
`CallError`. -/
theorem c6_validated_registry_no_internal_callError_witness :
    Tabol.validate_tables ρ0 δ0 3 tEx 0 = some (.ok (), 1) ∧
    (List.lookup "a" tEx.table_map).isSome ∧
    Tabol.gen ρ0 δ0 5 tEx "a" 0 ≠ some (.error (.CallError "No table found with id b"), 0) :=
  ⟨by decide, by decide,
    c6_validated_registry_no_internal_callError tEx ρ0 δ0 3 0 () 1 (by decide)
      "a" (by decide) ρ0 δ0 5 0 (.CallError "No table found with id b") 0⟩


/-! ## C9 — the rule-part alternation always consumes input -/

theorem isPrefixOf_length {t s : List Char} (h : t.isPrefixOf s = true) :
    t.length ≤ s.length := by
  induction t generalizing s with
  | nil => simp
  | cons c t' ih =>
      cases s with
      | nil => simp [List.isPrefixOf] at h
      | cons c2 s' =>
          simp only [List.isPrefixOf, Bool.and_eq_true] at h
          have := ih h.2
          simp only [List.length_cons]
          omega

theorem tagP_mono (t : List Char) : ConsumesMono (tagP t) := by
  intro s v r h
  simp only [tagP] at h
  split at h
  · cases h
    simp
  · cases h

theorem tagP_strict (t : List Char) (ht : t ≠ []) : ConsumesSome (tagP t) := by
  intro s v r h
  simp only [tagP] at h
  split at h
  · next hpre =>
      cases h
      have hle := isPrefixOf_length hpre
      have : 0 < t.length := List.length_pos.mpr ht
      simp only [List.length_drop]
      omega
  · cases h

theorem takeWhile1P_strict (f : Char → Bool) : ConsumesSome (takeWhile1P f) := by
  intro s v r h
  simp only [takeWhile1P] at h
  split at h
  · cases h
  · next hne =>
      cases h
      have hle : (s.takeWhile f).length ≤ s.length :=
        (List.takeWhile_sublist f).length_le
      have : 0 < (s.takeWhile f).length := List.length_pos.mpr hne
      simp only [List.length_drop]
      omega

theorem takeWhile1P_arg_nonempty (f : Char → Bool) (s v r : List Char)
    (h : takeWhile1P f s = .ok v r) : s ≠ [] := by
  intro hs
  subst hs
  simp [takeWhile1P] at h

theorem findSub_le (t : List Char) : ∀ (s : List Char) (i : Nat),
    findSub t s = some i → i ≤ s.length := by
  intro s
  induction s with
  | nil =>
      intro i h
      simp only [findSub] at h
      split at h
      · cases h; simp
      · cases h
  | cons c s' ih =>
      intro i h
      simp only [findSub] at h
      split at h
      · cases h
        simp
      · simp only [Option.map_eq_some'] at h
        obtain ⟨j, hj, hji⟩ := h
        have := ih j hj
        simp only [List.length_cons]
        omega

theorem takeUntilP_exact (t : List Char) : SplitsExact (takeUntilP t) := by
  intro s v r h
  simp only [takeUntilP] at h
  cases hf : findSub t s with
  | none => rw [hf] at h; cases h
  | some i =>
      rw [hf] at h
      cases h
      have := findSub_le t s i hf
      simp only [List.length_take, List.length_drop]
      omega

theorem notLineEndingP_exact : SplitsExact notLineEndingP := by
  intro s v r h
  have hle : (s.takeWhile fun c => c ≠ '\n' && c ≠ '\x0d').length ≤ s.length :=
    (List.takeWhile_sublist _).length_le
  simp only [notLineEndingP] at h
  split at h
  · split at h
    · cases h
      simp only [List.length_drop]
      omega
    · cases h
  · cases h
    simp only [List.length_drop]
    omega

theorem orP_mono (p q : ParserM α) (hp : ConsumesMono p) (hq : ConsumesMono q) :
    ConsumesMono (orP p q) := by
  intro s v r h
  simp only [orP] at h
  cases hps : p s with
  | ok v1 r1 => rw [hps] at h; cases h; exact hp s _ _ hps
  | err => rw [hps] at h; exact hq s v r h
  | fail => rw [hps] at h; cases h
  | panic => rw [hps] at h; cases h

theorem orP_strict (p q : ParserM α) (hp : ConsumesSome p) (hq : ConsumesSome q) :
    ConsumesSome (orP p q) := by
  intro s v r h
  simp only [orP] at h
  cases hps : p s with
  | ok v1 r1 => rw [hps] at h; cases h; exact hp s _ _ hps
  | err => rw [hps] at h; exact hq s v r h
  | fail => rw [hps] at h; cases h
  | panic => rw [hps] at h; cases h

theorem orP_exact (p q : ParserM (List Char)) (hp : SplitsExact p)
    (hq : SplitsExact q) : SplitsExact (orP p q) := by
  intro s v r h
  simp only [orP] at h
  cases hps : p s with
  | ok v1 r1 => rw [hps] at h; cases h; exact hp s _ _ hps
  | err => rw [hps] at h; exact hq s v r h
  | fail => rw [hps] at h; cases h
  | panic => rw [hps] at h; cases h

theorem mapP_mono (p : ParserM α) (f : α → β) (hp : ConsumesMono p) :
    ConsumesMono (mapP p f) := by
  intro s v r h
  simp only [mapP] at h
  cases hps : p s with
  | ok v1 r1 => rw [hps] at h; cases h; exact hp s _ _ hps
  | err => rw [hps] at h; cases h
  | fail => rw [hps] at h; cases h
  | panic => rw [hps] at h; cases h

theorem mapP_strict (p : ParserM α) (f : α → β) (hp : ConsumesSome p) :
    ConsumesSome (mapP p f) := by
  intro s v r h
  simp only [mapP] at h
  cases hps : p s with
  | ok v1 r1 => rw [hps] at h; cases h; exact hp s _ _ hps
  | err => rw [hps] at h; cases h
  | fail => rw [hps] at h; cases h
  | panic => rw [hps] at h; cases h

theorem cutP_mono (p : ParserM α) (hp : ConsumesMono p) : ConsumesMono (cutP p) := by
  intro s v r h
  simp only [cutP] at h
  cases hps : p s with
  | ok v1 r1 => rw [hps] at h; cases h; exact hp s _ _ hps
  | err => rw [hps] at h; cases h
  | fail => rw [hps] at h; cases h
  | panic => rw [hps] at h; cases h

theorem precededByP_mono (pre : ParserM α) (p : ParserM β)
    (hpre : ConsumesMono pre) (hp : ConsumesMono p) :
    ConsumesMono (precededByP pre p) := by
  intro s v r h
  simp only [precededByP] at h
  cases hps : pre s with
  | ok v1 r1 =>
      rw [hps] at h
      exact le_trans (hp r1 v r h) (hpre s _ _ hps)
  | err => rw [hps] at h; cases h
  | fail => rw [hps] at h; cases h
  | panic => rw [hps] at h; cases h

theorem precededByP_strict (pre : ParserM α) (p : ParserM β)
    (hpre : ConsumesSome pre) (hp : ConsumesMono p) :
    ConsumesSome (precededByP pre p) := by
  intro s v r h
  simp only [precededByP] at h
  cases hps : pre s with
  | ok v1 r1 =>
      rw [hps] at h
      exact lt_of_le_of_lt (hp r1 v r h) (hpre s _ _ hps)
  | err => rw [hps] at h; cases h
  | fail => rw [hps] at h; cases h
  | panic => rw [hps] at h; cases h

theorem terminatedP_mono (p : ParserM α) (post : ParserM β)
    (hp : ConsumesMono p) (hpost : ConsumesMono post) :
    ConsumesMono (terminatedP p post) := by
  intro s v r h
  simp only [terminatedP] at h
  cases hps : p s with
  | ok v1 r1 =>
      rw [hps] at h
      dsimp only at h
      cases hqs : post r1 with
      | ok v2 r2 =>
          rw [hqs] at h
          cases h
          exact le_trans (hpost r1 _ _ hqs) (hp s _ _ hps)
      | err => rw [hqs] at h; cases h
      | fail => rw [hqs] at h; cases h
      | panic => rw [hqs] at h; cases h
  | err => rw [hps] at h; cases h
  | fail => rw [hps] at h; cases h
  | panic => rw [hps] at h; cases h

theorem terminatedP_strict (p : ParserM α) (post : ParserM β)
    (hp : ConsumesSome p) (hpost : ConsumesMono post) :
    ConsumesSome (terminatedP p post) := by
  intro s v r h
  simp only [terminatedP] at h
  cases hps : p s with
  | ok v1 r1 =>
      rw [hps] at h
      dsimp only at h
      cases hqs : post r1 with
      | ok v2 r2 =>
          rw [hqs] at h
          cases h
          exact lt_of_le_of_lt (hpost r1 _ _ hqs) (hp s _ _ hps)
      | err => rw [hqs] at h; cases h
      | fail => rw [hqs] at h; cases h
      | panic => rw [hqs] at h; cases h
  | err => rw [hps] at h; cases h
  | fail => rw [hps] at h; cases h
  | panic => rw [hps] at h; cases h

theorem pairP_mono (p : ParserM α) (q : ParserM β)
    (hp : ConsumesMono p) (hq : ConsumesMono q) : ConsumesMono (pairP p q) := by
  intro s v r h
  simp only [pairP] at h
  cases hps : p s with
  | ok v1 r1 =>
      rw [hps] at h
      dsimp only at h
      cases hqs : q r1 with
      | ok v2 r2 =>
          rw [hqs] at h
          cases h
          exact le_trans (hq r1 _ _ hqs) (hp s _ _ hps)
      | err => rw [hqs] at h; cases h
      | fail => rw [hqs] at h; cases h
      | panic => rw [hqs] at h; cases h
  | err => rw [hps] at h; cases h
  | fail => rw [hps] at h; cases h
  | panic => rw [hps] at h; cases h

theorem mapParserP_strict (outer : ParserM (List Char)) (inner : ParserM β)
    (hex : SplitsExact outer)
    (hne : ∀ v w r2, inner v = .ok w r2 → v ≠ []) :
    ConsumesSome (mapParserP outer inner) := by
  intro s v r h
  simp only [mapParserP] at h
  cases hos : outer s with
  | ok v1 r1 =>
      rw [hos] at h
      dsimp only at h
      cases his : inner v1 with
      | ok v2 r2 =>
          rw [his] at h
          cases h
          have hsplit := hex s _ _ hos
          have hpos : 0 < v1.length :=
            List.length_pos.mpr (hne _ _ _ his)
          omega
      | err => rw [his] at h; cases h
      | fail => rw [his] at h; cases h
      | panic => rw [his] at h; cases h
  | err => rw [hos] at h; cases h
  | fail => rw [hos] at h; cases h
  | panic => rw [hos] at h; cases h

theorem manyGo_mono (p : ParserM α) :
    ∀ (f : Nat) (acc : List α) (s : List Char) (l : List α) (r : List Char),
      manyGo p f acc s = .ok l r → r.length ≤ s.length := by
  intro f
  induction f with
  | zero => intro acc s l r h; simp [manyGo] at h
  | succ f ih =>
      intro acc s l r h
      simp only [manyGo] at h
      cases hps : p s with
      | ok v1 r1 =>
          rw [hps] at h
          dsimp only at h
          split at h
          · next hlt => exact le_trans (ih _ r1 l r h) (Nat.le_of_lt hlt)
          · cases h
      | err => rw [hps] at h; cases h; exact Nat.le_refl _
      | fail => rw [hps] at h; cases h
      | panic => rw [hps] at h; cases h

theorem many0P_mono (p : ParserM α) : ConsumesMono (many0P p) := by
  intro s v r h
  exact manyGo_mono p (s.length + 1) [] s v r h

theorem filtersP_mono : ConsumesMono filtersP := by
  intro s v r h
  simp only [filtersP] at h
  cases hm : many0P (precededByP (tagP "|".toList) identP) s with
  | ok names rest =>
      rw [hm] at h
      dsimp only at h
      cases hn : names.mapM filterNameToOp with
      | none => rw [hn] at h; cases h
      | some ops => rw [hn] at h; cases h; exact many0P_mono _ s names r hm
  | err => rw [hm] at h; cases h
  | fail => rw [hm] at h; cases h
  | panic => rw [hm] at h; cases h

theorem openBrace_ne : openBrace ≠ [] := by decide

theorem identP_strict : ConsumesSome identP :=
  takeWhile1P_strict _

theorem identP_mono : ConsumesMono identP :=
  fun s v r h => Nat.le_of_lt (identP_strict s v r h)

theorem digit1NatStrict : ConsumesSome digit1Nat := by
  intro s v r h
  simp only [digit1Nat] at h
  cases ht : takeWhile1P Char.isDigit s with
  | ok ds rest =>
      rw [ht] at h
      dsimp only at h
      split at h
      · cases h
        exact takeWhile1P_strict _ s _ _ ht
      · cases h
  | err => rw [ht] at h; cases h
  | fail => rw [ht] at h; cases h
  | panic => rw [ht] at h; cases h

theorem digit1NatMono : ConsumesMono digit1Nat :=
  fun s v r h => Nat.le_of_lt (digit1NatStrict s v r h)

theorem pipelineP_mono : ConsumesMono pipelineP :=
  pairP_mono _ _ (cutP_mono _ identP_mono) filtersP_mono

theorem ruleDiceRollP_strict : ConsumesSome ruleDiceRollP :=
  mapP_strict _ _
    (terminatedP_strict _ _
      (precededByP_strict _ _ (tagP_strict _ openBrace_ne)
        (orP_mono _ _
          (pairP_mono _ _ digit1NatMono
            (precededByP_mono _ _ (tagP_mono _) digit1NatMono))
          (mapP_mono _ _ (precededByP_mono _ _ (tagP_mono _) digit1NatMono))))
      (tagP_mono _))

theorem ruleInterpolationP_strict : ConsumesSome ruleInterpolationP :=
  mapP_strict _ _
    (terminatedP_strict _ _
      (precededByP_strict _ _ (tagP_strict _ openBrace_ne) pipelineP_mono)
      (tagP_mono _))

theorem ruleLiteralP_strict : ConsumesSome ruleLiteralP :=
  mapP_strict _ _
    (mapParserP_strict _ _
      (orP_exact _ _ (takeUntilP_exact _) notLineEndingP_exact)
      (fun v w r2 h => takeWhile1P_arg_nonempty isLiteralChar v w r2 h))

theorem rulePartP_strict : ConsumesSome rulePartP :=
  orP_strict _ _ (orP_strict _ _ ruleDiceRollP_strict ruleInterpolationP_strict)
    ruleLiteralP_strict

/-- C9: the literal rule-part parser never matches the empty string, and
neither does any alternative of the rule-part alternation: every
successful rule part strictly consumes input, so the `many1` repetition
of `rule` always makes forward progress (its fuel, set above the input
length, can never run out).  A line beginning with an unrecognized
`{{…}}` form fails — shown on `{{!!}}x`, where the committed (`cut`)
pipeline turns the mismatch into an unrecoverable failure — rather than
looping. -/
theorem c9_rule_parts_consume :
    (∀ (s : List Char) (v : RuleInst) (rest : List Char),
      ruleLiteralP s = .ok v rest → rest.length < s.length) ∧
    (∀ (s : List Char) (v : RuleInst) (rest : List Char),
      rulePartP s = .ok v rest → rest.length < s.length) ∧
    ruleBodyP "{{!!}}x".toList = .fail :=
  ⟨ruleLiteralP_strict, rulePartP_strict, by decide⟩

/-- C9 witness: a concrete literal match consumes the matched
characters. -/
theorem c9_rule_parts_consume_witness :
    ruleLiteralP "ab".toList = .ok (.Literal "ab") [] ∧
    ([] : List Char).length < "ab".toList.length :=
  ⟨by decide, c9_rule_parts_consume.1 "ab".toList (.Literal "ab") [] (by decide)⟩
